import Mathlib

/-!
Shallow embedding of the batch-commit planner and execution pipeline of
`git-commit-large-files.py`, together with theorems about its planning,
simplification, chunking, filtering and execution behaviour.

Pure functions of the script (`organize_files_by_directory`, `create_batches`,
`simplify_batch_files`, the chunk-building part of `batch_git_add_files`,
the size filter of `get_git_files`, the message derivation of
`create_commit_message_file`) are translated into Lean functions.  The
dictionary `defaultdict(list)` keeps keys in first-insertion order and each
key's list in input order; this is modelled by `dirKeys` / `dirFiles`.
Python's `sorted` / `list.sort` are stable sorts keyed on a numeric key;
they are modelled by `List.insertionSort` with the corresponding total
preorder, which is the same stable sort.  The external-process execution
loop of `main` is modelled by a step function over the list of per-batch
outcomes.
-/

namespace GitBatch

/-- File entry produced by discovery: relative path, byte size, and parent
directory (`"."` for the repository root).  Mirrors the dicts built in
`get_git_status_files` / `get_files_from_directory`. -/
structure FileEntry where
  path : String
  size : Nat
  dir : String
deriving DecidableEq

/-- Hard per-file ceiling of `get_git_files`: 50 MiB (`50 * 1024 * 1024`). -/
def maxFileSize : Nat := 50 * 1024 * 1024

/-- Default `max_batch_size` parameter of `create_batches`: 100 MiB. -/
def defaultMaxBatchSize : Nat := 100 * 1024 * 1024

/-- Default `max_command_length` parameter of `batch_git_add_files`. -/
def defaultMaxCommandLength : Nat := 32000

/-- Directory keys of `organize_files_by_directory`'s `defaultdict`, in
first-insertion order (the order Python dict keys are iterated in). -/
def dirKeys (files : List FileEntry) : List String :=
  files.foldl (fun ks f => if f.dir ∈ ks then ks else ks ++ [f.dir]) []

/-- Value list of `organize_files_by_directory`'s `dir_files` dict for one
directory: the entries of that directory in input order. -/
def dirFiles (files : List FileEntry) (d : String) : List FileEntry :=
  files.filter (fun f => decide (f.dir = d))

/-- Aggregate byte size of a group of entries (used for batches). -/
def batchSize (b : List FileEntry) : Nat :=
  (b.map (fun f => f.size)).sum

/-- Value of `organize_files_by_directory`'s `dir_sizes` dict for one
directory: total size of that directory's entries. -/
def dirSize (files : List FileEntry) (d : String) : Nat :=
  batchSize (dirFiles files d)

/-- Stable descending sort by individual file size:
`files.sort(key=lambda x: x["size"], reverse=True)` in `create_batches`. -/
def sortFilesDesc (fs : List FileEntry) : List FileEntry :=
  List.insertionSort (fun a b => b.size ≤ a.size) fs

/-- One step of the Phase-2 greedy loop of `create_batches` (lines 159-167):
state is (closed batches, current batch, current batch size). -/
def greedyStep (m : Nat) (st : List (List FileEntry) × List FileEntry × Nat)
    (f : FileEntry) : List (List FileEntry) × List FileEntry × Nat :=
  if st.2.2 + f.size ≤ m then
    (st.1, st.2.1 ++ [f], st.2.2 + f.size)
  else
    ((if st.2.1 = [] then st.1 else st.1 ++ [st.2.1]), [f], f.size)

/-- Phase-2 greedy packing of one directory's (descending-sorted) file list
into batches, including the final flush of a nonempty current batch
(lines 156-169 of `create_batches`). -/
def greedyFill (m : Nat) (fs : List FileEntry) : List (List FileEntry) :=
  let st := fs.foldl (greedyStep m) ([], [], 0)
  if st.2.1 = [] then st.1 else st.1 ++ [st.2.1]

/-- Ascending stable sort of the directory keys by aggregate size:
`sorted(dir_sizes.keys(), key=lambda d: dir_sizes[d])`. -/
def sortedDirsAsc (files : List FileEntry) : List String :=
  List.insertionSort (fun a b => dirSize files a ≤ dirSize files b) (dirKeys files)

/-- Phase-1 directories of `create_batches`: those whose aggregate size fits
within the batch budget, visited in ascending-size order (lines 148-152;
iterating a copy while removing emits exactly the fitting directories in
order and leaves the oversized ones). -/
def phase1Dirs (files : List FileEntry) (m : Nat) : List String :=
  (sortedDirsAsc files).filter (fun d => decide (dirSize files d ≤ m))

/-- Phase-2 directories of `create_batches`: the oversized remainder,
re-sorted by descending aggregate size with Python's stable
`sorted(..., reverse=True)` (line 153). -/
def phase2Dirs (files : List FileEntry) (m : Nat) : List String :=
  List.insertionSort (fun a b => dirSize files b ≤ dirSize files a)
    ((sortedDirsAsc files).filter (fun d => !decide (dirSize files d ≤ m)))

/-- The batch planner `create_batches(git_files, max_batch_size)`:
empty input short-circuits to an empty plan; otherwise Phase-1 emits each
fitting directory whole as one batch, then Phase-2 greedily packs each
oversized directory's files (sorted by descending size) into batches. -/
def createBatches (gitFiles : List FileEntry) (maxBatchSize : Nat) :
    List (List FileEntry) :=
  if gitFiles = [] then []
  else
    (phase1Dirs gitFiles maxBatchSize).map (fun d => dirFiles gitFiles d)
      ++ ((phase2Dirs gitFiles maxBatchSize).map
            (fun d => greedyFill maxBatchSize (sortFilesDesc (dirFiles gitFiles d)))).flatten

/-- Batch-path set within one directory equals the full accepted set's
path set for that directory: the `set(...) == set(...)` test of
`simplify_batch_files` (lines 185-187). -/
def dirSetEq (batchFiles allGitFiles : List FileEntry) (d : String) : Bool :=
  decide (((dirFiles batchFiles d).map (fun f => f.path)).toFinset
    = ((dirFiles allGitFiles d).map (fun f => f.path)).toFinset)

/-- One step of the `simplify_batch_files` loop over the batch's directory
groups: root-directory entries are always listed as files; a directory whose
batch paths coincide with its full pending paths becomes a directory token;
otherwise its file paths are listed. -/
def simplifyStep (batchFiles allGitFiles : List FileEntry)
    (acc : List String × List String) (d : String) : List String × List String :=
  if d = "." then
    (acc.1 ++ (dirFiles batchFiles d).map (fun f => f.path), acc.2)
  else if dirSetEq batchFiles allGitFiles d then
    (acc.1, acc.2 ++ [d])
  else
    (acc.1 ++ (dirFiles batchFiles d).map (fun f => f.path), acc.2)

/-- The batch simplifier `simplify_batch_files(batch_files, repo_path,
all_git_files)` (lines 173-191): returns (simplified file paths,
simplified directory tokens). -/
def simplifyBatchFiles (batchFiles allGitFiles : List FileEntry) :
    List String × List String :=
  (dirKeys batchFiles).foldl (simplifyStep batchFiles allGitFiles) ([], [])

/-- Length of the fixed staging-command text `"git add "`. -/
def baseCommandLength : Nat := 8

/-- Estimated command length of one chunk: the fixed command text plus each
token's length counted with one separator character. -/
def chunkCommandLength (c : List String) : Nat :=
  baseCommandLength + (c.map (fun p => p.length + 1)).sum

/-- One step of the chunk-building loop of `batch_git_add_files`
(lines 235-244): state is (closed chunks, current chunk, current length). -/
def chunkStep (maxLen : Nat) (st : List (List String) × List String × Nat)
    (p : String) : List (List String) × List String × Nat :=
  if st.2.2 + (p.length + 1) + baseCommandLength > maxLen then
    ((if st.2.1 = [] then st.1 else st.1 ++ [st.2.1]), [p], p.length + 1)
  else
    (st.1, st.2.1 ++ [p], st.2.2 + (p.length + 1))

/-- The chunk plan computed by `batch_git_add_files(file_paths, repo_path,
max_command_length)` before any external invocation (lines 228-246): the
ordered list of path-token chunks, one `git add` invocation each. -/
def batchGitAddChunks (filePaths : List String) (maxCommandLength : Nat) :
    List (List String) :=
  if filePaths = [] then []
  else
    let st := filePaths.foldl (chunkStep maxCommandLength) ([], [], 0)
    if st.2.1 = [] then st.1 else st.1 ++ [st.2.1]

/-- The size-filter loop of `get_git_files` (lines 122-129): entries above
`maxFileSize` go to the skipped path list, the rest are accepted in order. -/
def filterGitFiles (gitFiles : List FileEntry) : List FileEntry × List String :=
  gitFiles.foldl
    (fun acc f =>
      if maxFileSize < f.size then (acc.1, acc.2 ++ [f.path])
      else (acc.1 ++ [f], acc.2))
    ([], [])

/-- Batch marker appended by `create_commit_message_file`:
`" (批次 {batch_index}/{total_batches})"`. -/
def batchMarker (batchIndex totalBatches : Nat) : String :=
  " (批次 " ++ toString batchIndex ++ "/" ++ toString totalBatches ++ ")"

/-- Result of deriving a per-batch commit message: path of the file the
commit will read, the message text, and whether a disposable temp file was
created for it. -/
structure CommitMessageResult where
  msgPath : String
  message : String
  createdTempFile : Bool
deriving DecidableEq

/-- The message derivation of `create_commit_message_file(original, i, n)`
(lines 194-215), with the file reads/writes abstracted: `origMessage` is the
stripped template text read from `origPath`, and the temp-file write is
modelled as succeeding.  A 1-batch plan returns the original path and text
with no temp file; otherwise the marker is appended (after a newline when
the stripped text is nonempty and does not already end in one) and written
to `origPath + ".batch" + i`. -/
def createCommitMessageFile (origPath origMessage : String)
    (batchIndex totalBatches : Nat) : CommitMessageResult :=
  if totalBatches = 1 then
    { msgPath := origPath, message := origMessage, createdTempFile := false }
  else
    let suffix := batchMarker batchIndex totalBatches
    let newMessage :=
      if origMessage ≠ "" ∧ ¬ origMessage.endsWith "\n" then
        origMessage ++ "\n" ++ suffix
      else
        origMessage ++ suffix
    { msgPath := origPath ++ ".batch" ++ toString batchIndex,
      message := newMessage, createdTempFile := true }

/-- Budget property of a planned batch (spec §8, first testable property):
aggregate size within the budget, or a single file whose own size alone
exceeds it. -/
def batchWithinBudget (m : Nat) (b : List FileEntry) : Prop :=
  batchSize b ≤ m ∨ ∃ f, b = [f] ∧ m < f.size

/-- Budget property of a staging chunk (spec §4.6): estimated command length
within the limit, or a single token that alone exceeds it. -/
def chunkWithinBudget (maxLen : Nat) (c : List String) : Prop :=
  chunkCommandLength c ≤ maxLen ∨ ∃ t, c = [t] ∧ maxLen < chunkCommandLength [t]

/-- Kind of a status-reported path on disk, as tested by
`file_path.exists()` / `is_dir()` / `is_file()` in `get_git_status_files`:
a regular file with a size, a directory, or neither (deleted/absent). -/
inductive PathKind where
  | regularFile (size : Nat)
  | directory
  | absent
deriving DecidableEq

/-- Processing of one status-reported path by `get_git_status_files`
(lines 63-82): a directory is expanded (the expansion is an oracle
parameter), anything else becomes one entry whose size is the stat size for
a regular file and 0 otherwise. -/
def statusEntriesFor (fs : String → PathKind) (parentDir : String → String)
    (expandDir : String → List FileEntry) (p : String) : List FileEntry :=
  match fs p with
  | PathKind.directory => expandDir p
  | PathKind.regularFile s => [{ path := p, size := s, dir := parentDir p }]
  | PathKind.absent => [{ path := p, size := 0, dir := parentDir p }]

/-- The guard at the top of `execute_git_add_commit` (lines 280-282): an
empty batch makes it fail immediately. -/
def emptyBatchGuard (files : List FileEntry) : Bool :=
  files.isEmpty

/-- Outcome of `execute_git_add_commit` for one batch as a function of the
staging and commit results: staging failure returns before the commit runs,
commit failure also fails the batch (lines 300-329). -/
def execBatchOutcome (stageOk commitOk : Bool) : Bool :=
  stageOk && commitOk

/-- The per-batch loop of `main` (lines 413-442) over the list of per-batch
(staging result, commit result) pairs: returns (number of successful
batches, number of attempted batches).  A failed batch breaks the loop with
that batch counted as attempted but not successful. -/
def runBatches : List (Bool × Bool) → Nat × Nat
  | [] => (0, 0)
  | b :: rest =>
    if execBatchOutcome b.1 b.2 then
      ((runBatches rest).1 + 1, (runBatches rest).2 + 1)
    else
      (0, 1)

/-- Number of `git push` invocations of `main` (lines 443-447): push runs
exactly once when the successful-batch count equals the plan length,
otherwise not at all. -/
def pushCount (plan : List (Bool × Bool)) : Nat :=
  if (runBatches plan).1 = plan.length then 1 else 0

/-! Helper lemmas about the directory dictionary. -/

theorem mem_foldl_dirKeys (files : List FileEntry) (acc : List String) (d : String) :
    d ∈ files.foldl (fun ks f => if f.dir ∈ ks then ks else ks ++ [f.dir]) acc
      ↔ d ∈ acc ∨ ∃ f ∈ files, f.dir = d := by
  induction files generalizing acc with
  | nil => simp
  | cons g gs ih =>
    simp only [List.foldl_cons]
    by_cases h : g.dir ∈ acc
    · rw [if_pos h, ih]
      constructor
      · rintro (h1 | ⟨f, hf, rfl⟩)
        · exact Or.inl h1
        · exact Or.inr ⟨f, List.mem_cons_of_mem g hf, rfl⟩
      · rintro (h1 | ⟨f, hf, hfd⟩)
        · exact Or.inl h1
        · rcases List.mem_cons.mp hf with rfl | hf'
          · exact Or.inl (hfd ▸ h)
          · exact Or.inr ⟨f, hf', hfd⟩
    · rw [if_neg h, ih]
      constructor
      · rintro (h1 | ⟨f, hf, rfl⟩)
        · rcases List.mem_append.mp h1 with h2 | h2
          · exact Or.inl h2
          · have hd : d = g.dir := by simpa using h2
            exact Or.inr ⟨g, List.mem_cons_self g gs, hd.symm⟩
        · exact Or.inr ⟨f, List.mem_cons_of_mem g hf, rfl⟩
      · rintro (h1 | ⟨f, hf, hfd⟩)
        · exact Or.inl (List.mem_append.mpr (Or.inl h1))
        · rcases List.mem_cons.mp hf with rfl | hf'
          · exact Or.inl (List.mem_append.mpr (Or.inr (by simp [hfd])))
          · exact Or.inr ⟨f, hf', hfd⟩

theorem mem_dirKeys (files : List FileEntry) (d : String) :
    d ∈ dirKeys files ↔ ∃ f ∈ files, f.dir = d := by
  rw [dirKeys, mem_foldl_dirKeys]
  simp

theorem nodup_foldl_dirKeys (files : List FileEntry) (acc : List String)
    (h : acc.Nodup) :
    (files.foldl (fun ks f => if f.dir ∈ ks then ks else ks ++ [f.dir]) acc).Nodup := by
  induction files generalizing acc with
  | nil => simpa using h
  | cons g gs ih =>
    simp only [List.foldl_cons]
    by_cases hm : g.dir ∈ acc
    · rw [if_pos hm]; exact ih acc h
    · rw [if_neg hm]
      apply ih
      rw [List.nodup_append]
      refine ⟨h, List.nodup_singleton _, ?_⟩
      intro a ha hb
      have : a = g.dir := by simpa using hb
      exact hm (this ▸ ha)

theorem nodup_dirKeys (files : List FileEntry) : (dirKeys files).Nodup :=
  nodup_foldl_dirKeys files [] List.nodup_nil

theorem flatten_map_dirFiles_perm :
    ∀ (keys : List String) (files : List FileEntry), keys.Nodup →
      (∀ f ∈ files, f.dir ∈ keys) →
      List.Perm ((keys.map (fun d => dirFiles files d)).flatten) files := by
  intro keys
  induction keys with
  | nil =>
    intro files _ hcov
    have : files = [] :=
      List.eq_nil_iff_forall_not_mem.mpr (fun f hf => by simpa using hcov f hf)
    subst this
    simp
  | cons k ks ih =>
    intro files hnd hcov
    have hknk : k ∉ ks := (List.nodup_cons.mp hnd).1
    have hndks : ks.Nodup := (List.nodup_cons.mp hnd).2
    have hcov' : ∀ f ∈ files.filter (fun f => !decide (f.dir = k)), f.dir ∈ ks := by
      intro f hf
      have hm := List.mem_filter.mp hf
      have hne : f.dir ≠ k := by simpa using hm.2
      rcases List.mem_cons.mp (hcov f hm.1) with h | h
      · exact absurd h hne
      · exact h
    have hdir : ∀ k' ∈ ks,
        dirFiles files k' = dirFiles (files.filter (fun f => !decide (f.dir = k))) k' := by
      intro k' hk'
      have hne : k' ≠ k := fun h => hknk (h ▸ hk')
      simp only [dirFiles, List.filter_filter]
      apply List.filter_congr
      intro f _
      by_cases h : f.dir = k'
      · simp [h, hne]
      · simp [h]
    have hmapeq : ks.map (fun d => dirFiles files d)
        = ks.map (fun d => dirFiles (files.filter (fun f => !decide (f.dir = k))) d) :=
      List.map_congr_left hdir
    have hperm1 :
        List.Perm ((ks.map (fun d => dirFiles files d)).flatten)
          (files.filter (fun f => !decide (f.dir = k))) := by
      rw [hmapeq]
      exact ih (files.filter (fun f => !decide (f.dir = k))) hndks hcov'
    have hperm2 :
        List.Perm (dirFiles files k ++ files.filter (fun f => !decide (f.dir = k))) files := by
      have h := List.filter_append_perm (fun f => decide (f.dir = k)) files
      simpa [dirFiles] using h
    simp only [List.map_cons, List.flatten_cons]
    exact (List.Perm.append_left (dirFiles files k) hperm1).trans hperm2

/-! Helper lemmas about the Phase-2 greedy packing loop. -/

theorem greedy_foldl_flatten (m : Nat) :
    ∀ (fs : List FileEntry) (batches : List (List FileEntry)) (cur : List FileEntry) (s : Nat),
      ((fs.foldl (greedyStep m) (batches, cur, s)).1).flatten
          ++ (fs.foldl (greedyStep m) (batches, cur, s)).2.1
        = batches.flatten ++ cur ++ fs := by
  intro fs
  induction fs with
  | nil => intro batches cur s; simp
  | cons f fs ih =>
    intro batches cur s
    simp only [List.foldl_cons, greedyStep]
    by_cases h : s + f.size ≤ m
    · rw [if_pos h, ih]
      simp
    · rw [if_neg h, ih]
      by_cases hc : cur = []
      · subst hc; simp
      · rw [if_neg hc]; simp

theorem greedyFill_flatten (m : Nat) (fs : List FileEntry) :
    (greedyFill m fs).flatten = fs := by
  have h := greedy_foldl_flatten m fs [] [] 0
  simp only [List.flatten_nil, List.nil_append] at h
  simp only [greedyFill]
  by_cases hc : (fs.foldl (greedyStep m) ([], [], 0)).2.1 = []
  · rw [if_pos hc]
    rw [hc, List.append_nil] at h
    exact h
  · rw [if_neg hc]
    simpa using h

theorem greedy_foldl_budget (m : Nat) :
    ∀ (fs : List FileEntry) (batches : List (List FileEntry)) (cur : List FileEntry) (s : Nat),
      (∀ b ∈ batches, batchWithinBudget m b) →
      batchSize cur = s →
      batchWithinBudget m cur →
      (∀ b ∈ (fs.foldl (greedyStep m) (batches, cur, s)).1, batchWithinBudget m b)
        ∧ batchSize (fs.foldl (greedyStep m) (batches, cur, s)).2.1
            = (fs.foldl (greedyStep m) (batches, cur, s)).2.2
        ∧ batchWithinBudget m (fs.foldl (greedyStep m) (batches, cur, s)).2.1 := by
  intro fs
  induction fs with
  | nil => intro batches cur s hb hcs hcb; exact ⟨hb, hcs, hcb⟩
  | cons f fs ih =>
    intro batches cur s hb hcs hcb
    simp only [List.foldl_cons, greedyStep]
    by_cases h : s + f.size ≤ m
    · rw [if_pos h]
      apply ih
      · exact hb
      · have hub : batchSize (cur ++ [f]) = batchSize cur + f.size := by
          simp [batchSize]
        omega
      · left
        have hub : batchSize (cur ++ [f]) = batchSize cur + f.size := by
          simp [batchSize]
        omega
    · rw [if_neg h]
      apply ih
      · intro b hbmem
        by_cases hc : cur = []
        · rw [if_pos hc] at hbmem; exact hb b hbmem
        · rw [if_neg hc] at hbmem
          rcases List.mem_append.mp hbmem with h1 | h1
          · exact hb b h1
          · have hbc : b = cur := by simpa using h1
            exact hbc ▸ hcb
      · simp [batchSize]
      · rcases le_or_lt f.size m with h1 | h1
        · left; simpa [batchSize] using h1
        · right; exact ⟨f, rfl, h1⟩

theorem greedyFill_budget (m : Nat) (fs : List FileEntry) :
    ∀ b ∈ greedyFill m fs, batchWithinBudget m b := by
  have h := greedy_foldl_budget m fs [] [] 0 (by simp) (by simp [batchSize])
    (Or.inl (by simp [batchSize]))
  intro b hb
  simp only [greedyFill] at hb
  by_cases hc : (fs.foldl (greedyStep m) ([], [], 0)).2.1 = []
  · rw [if_pos hc] at hb; exact h.1 b hb
  · rw [if_neg hc] at hb
    rcases List.mem_append.mp hb with h1 | h1
    · exact h.1 b h1
    · have hbc : b = (fs.foldl (greedyStep m) ([], [], 0)).2.1 := by simpa using h1
      exact hbc ▸ h.2.2

theorem greedy_foldl_ne_nil (m : Nat) :
    ∀ (fs : List FileEntry) (batches : List (List FileEntry)) (cur : List FileEntry) (s : Nat),
      (∀ b ∈ batches, b ≠ []) →
      ∀ b ∈ (fs.foldl (greedyStep m) (batches, cur, s)).1, b ≠ [] := by
  intro fs
  induction fs with
  | nil => intro batches cur s hb; exact hb
  | cons f fs ih =>
    intro batches cur s hb
    simp only [List.foldl_cons, greedyStep]
    by_cases h : s + f.size ≤ m
    · rw [if_pos h]
      exact ih batches (cur ++ [f]) (s + f.size) hb
    · rw [if_neg h]
      apply ih
      intro b hbmem
      by_cases hc : cur = []
      · rw [if_pos hc] at hbmem; exact hb b hbmem
      · rw [if_neg hc] at hbmem
        rcases List.mem_append.mp hbmem with h1 | h1
        · exact hb b h1
        · have hbc : b = cur := by simpa using h1
          exact hbc ▸ hc

theorem greedyFill_ne_nil (m : Nat) (fs : List FileEntry) :
    ∀ b ∈ greedyFill m fs, b ≠ [] := by
  intro b hb
  simp only [greedyFill] at hb
  by_cases hc : (fs.foldl (greedyStep m) ([], [], 0)).2.1 = []
  · rw [if_pos hc] at hb
    exact greedy_foldl_ne_nil m fs [] [] 0 (by simp) b hb
  · rw [if_neg hc] at hb
    rcases List.mem_append.mp hb with h1 | h1
    · exact greedy_foldl_ne_nil m fs [] [] 0 (by simp) b h1
    · have hbc : b = (fs.foldl (greedyStep m) ([], [], 0)).2.1 := by simpa using h1
      exact hbc ▸ hc

/-! Helper lemmas about the command chunker. -/

theorem chunk_foldl_flatten (L : Nat) :
    ∀ (ps : List String) (chunks : List (List String)) (cur : List String) (len : Nat),
      ((ps.foldl (chunkStep L) (chunks, cur, len)).1).flatten
          ++ (ps.foldl (chunkStep L) (chunks, cur, len)).2.1
        = chunks.flatten ++ cur ++ ps := by
  intro ps
  induction ps with
  | nil => intro chunks cur len; simp
  | cons p ps ih =>
    intro chunks cur len
    simp only [List.foldl_cons, chunkStep]
    by_cases h : len + (p.length + 1) + baseCommandLength > L
    · rw [if_pos h, ih]
      by_cases hc : cur = []
      · subst hc; simp
      · rw [if_neg hc]; simp
    · rw [if_neg h, ih]
      simp

theorem batchGitAddChunks_flatten (ps : List String) (L : Nat) :
    (batchGitAddChunks ps L).flatten = ps := by
  by_cases hps : ps = []
  · subst hps; simp [batchGitAddChunks]
  · have h := chunk_foldl_flatten L ps [] [] 0
    simp only [List.flatten_nil, List.nil_append] at h
    simp only [batchGitAddChunks, if_neg hps]
    by_cases hc : (ps.foldl (chunkStep L) ([], [], 0)).2.1 = []
    · rw [if_pos hc]
      rw [hc, List.append_nil] at h
      exact h
    · rw [if_neg hc]
      simpa using h

theorem chunk_foldl_budget (L : Nat) :
    ∀ (ps : List String) (chunks : List (List String)) (cur : List String) (len : Nat),
      (∀ c ∈ chunks, chunkWithinBudget L c) →
      (cur.map (fun p => p.length + 1)).sum = len →
      (cur = [] ∨ chunkWithinBudget L cur) →
      (∀ c ∈ (ps.foldl (chunkStep L) (chunks, cur, len)).1, chunkWithinBudget L c)
        ∧ ((ps.foldl (chunkStep L) (chunks, cur, len)).2.1.map (fun p => p.length + 1)).sum
            = (ps.foldl (chunkStep L) (chunks, cur, len)).2.2
        ∧ ((ps.foldl (chunkStep L) (chunks, cur, len)).2.1 = []
            ∨ chunkWithinBudget L (ps.foldl (chunkStep L) (chunks, cur, len)).2.1) := by
  intro ps
  induction ps with
  | nil => intro chunks cur len hc hsum hcb; exact ⟨hc, hsum, hcb⟩
  | cons p ps ih =>
    intro chunks cur len hc hsum hcb
    simp only [List.foldl_cons, chunkStep]
    by_cases h : len + (p.length + 1) + baseCommandLength > L
    · rw [if_pos h]
      apply ih
      · intro c hcm
        by_cases hcur : cur = []
        · rw [if_pos hcur] at hcm; exact hc c hcm
        · rw [if_neg hcur] at hcm
          rcases List.mem_append.mp hcm with h1 | h1
          · exact hc c h1
          · have hcc : c = cur := by simpa using h1
            rcases hcb with hnil | hbud
            · exact absurd hnil (hcc ▸ hcur)
            · exact hcc ▸ hbud
      · simp
      · right
        rcases le_or_lt (chunkCommandLength [p]) L with h1 | h1
        · left; exact h1
        · right; exact ⟨p, rfl, h1⟩
    · rw [if_neg h]
      apply ih
      · exact hc
      · simp [hsum]
      · right
        left
        have hlen : chunkCommandLength (cur ++ [p])
            = baseCommandLength + ((cur.map (fun q => q.length + 1)).sum + (p.length + 1)) := by
          simp [chunkCommandLength]
        omega

theorem batchGitAddChunks_budget (ps : List String) (L : Nat) :
    ∀ c ∈ batchGitAddChunks ps L, chunkWithinBudget L c := by
  intro c hcm
  by_cases hps : ps = []
  · subst hps; simp [batchGitAddChunks] at hcm
  · have h := chunk_foldl_budget L ps [] [] 0 (by simp) (by simp) (Or.inl rfl)
    simp only [batchGitAddChunks, if_neg hps] at hcm
    by_cases hcur : (ps.foldl (chunkStep L) ([], [], 0)).2.1 = []
    · rw [if_pos hcur] at hcm; exact h.1 c hcm
    · rw [if_neg hcur] at hcm
      rcases List.mem_append.mp hcm with h1 | h1
      · exact h.1 c h1
      · have hcc : c = (ps.foldl (chunkStep L) ([], [], 0)).2.1 := by simpa using h1
        rcases h.2.2 with hnil | hbud
        · exact absurd hnil (hcc ▸ hcur)
        · exact hcc ▸ hbud

/-! Helper lemmas about the two planning phases of `create_batches`. -/

theorem pairwise_sortedDirsAsc (files : List FileEntry) :
    List.Pairwise (fun a b => dirSize files a ≤ dirSize files b) (sortedDirsAsc files) := by
  haveI : IsTotal String (fun a b => dirSize files a ≤ dirSize files b) :=
    ⟨fun a b => Nat.le_total _ _⟩
  haveI : IsTrans String (fun a b => dirSize files a ≤ dirSize files b) :=
    ⟨fun a b c hab hbc => le_trans hab hbc⟩
  exact List.sorted_insertionSort _ _

theorem pairwise_phase1Dirs (files : List FileEntry) (m : Nat) :
    List.Pairwise (fun a b => dirSize files a ≤ dirSize files b) (phase1Dirs files m) :=
  List.Pairwise.sublist (List.filter_sublist _) (pairwise_sortedDirsAsc files)

theorem pairwise_phase2Dirs (files : List FileEntry) (m : Nat) :
    List.Pairwise (fun a b => dirSize files b ≤ dirSize files a) (phase2Dirs files m) := by
  haveI : IsTotal String (fun a b => dirSize files b ≤ dirSize files a) :=
    ⟨fun a b => Nat.le_total _ _⟩
  haveI : IsTrans String (fun a b => dirSize files b ≤ dirSize files a) :=
    ⟨fun a b c hab hbc => le_trans hbc hab⟩
  exact List.sorted_insertionSort _ _

theorem mem_sortedDirsAsc (files : List FileEntry) (d : String) :
    d ∈ sortedDirsAsc files ↔ d ∈ dirKeys files := by
  simp only [sortedDirsAsc]
  exact (List.perm_insertionSort _ _).mem_iff

theorem mem_phase1Dirs (files : List FileEntry) (m : Nat) (d : String) :
    d ∈ phase1Dirs files m ↔ d ∈ dirKeys files ∧ dirSize files d ≤ m := by
  simp only [phase1Dirs, List.mem_filter, mem_sortedDirsAsc, decide_eq_true_eq]

theorem mem_phase2Dirs (files : List FileEntry) (m : Nat) (d : String) :
    d ∈ phase2Dirs files m ↔ d ∈ dirKeys files ∧ m < dirSize files d := by
  simp only [phase2Dirs]
  rw [(List.perm_insertionSort _ _).mem_iff]
  simp [List.mem_filter, mem_sortedDirsAsc, Nat.not_le]

theorem phaseDirs_append_perm (files : List FileEntry) (m : Nat) :
    List.Perm (phase1Dirs files m ++ phase2Dirs files m) (dirKeys files) := by
  have h1 : List.Perm (phase2Dirs files m)
      ((sortedDirsAsc files).filter (fun d => !decide (dirSize files d ≤ m))) :=
    List.perm_insertionSort _ _
  have h2 := List.filter_append_perm (fun d => decide (dirSize files d ≤ m)) (sortedDirsAsc files)
  have h3 : List.Perm (sortedDirsAsc files) (dirKeys files) := List.perm_insertionSort _ _
  exact ((List.Perm.append_left _ h1).trans h2).trans h3

/-! Helper lemmas about the full planner `createBatches`. -/

theorem createBatches_flatten_perm (files : List FileEntry) (m : Nat) :
    List.Perm (createBatches files m).flatten files := by
  by_cases hf : files = []
  · subst hf; simp [createBatches]
  · simp only [createBatches, if_neg hf]
    rw [List.flatten_append]
    have hp2 : ∀ ds : List String,
        List.Perm
          (((ds.map (fun d => greedyFill m (sortFilesDesc (dirFiles files d)))).flatten).flatten)
          ((ds.map (fun d => dirFiles files d)).flatten) := by
      intro ds
      induction ds with
      | nil => simp
      | cons d ds ih =>
        simp only [List.map_cons, List.flatten_cons, List.flatten_append]
        refine List.Perm.append ?_ ih
        rw [greedyFill_flatten]
        exact List.perm_insertionSort _ _
    refine (List.Perm.append_left _ (hp2 (phase2Dirs files m))).trans ?_
    have heq : ((phase1Dirs files m).map (fun d => dirFiles files d)).flatten
          ++ ((phase2Dirs files m).map (fun d => dirFiles files d)).flatten
        = ((phase1Dirs files m ++ phase2Dirs files m).map (fun d => dirFiles files d)).flatten := by
      rw [List.map_append, List.flatten_append]
    rw [heq]
    refine (((phaseDirs_append_perm files m).map (fun d => dirFiles files d)).flatten).trans ?_
    exact flatten_map_dirFiles_perm (dirKeys files) files (nodup_dirKeys files)
      (fun f hf2 => (mem_dirKeys files f.dir).mpr ⟨f, hf2, rfl⟩)

theorem createBatches_budget (files : List FileEntry) (m : Nat) :
    ∀ b ∈ createBatches files m, batchWithinBudget m b := by
  intro b hb
  by_cases hf : files = []
  · subst hf; simp [createBatches] at hb
  · simp only [createBatches, if_neg hf] at hb
    rcases List.mem_append.mp hb with h1 | h1
    · rcases List.mem_map.mp h1 with ⟨d, hd, rfl⟩
      left
      exact ((mem_phase1Dirs files m d).mp hd).2
    · rcases List.mem_flatten.mp h1 with ⟨bs, hbs, hbmem⟩
      rcases List.mem_map.mp hbs with ⟨d, _, rfl⟩
      exact greedyFill_budget m _ b hbmem

theorem createBatches_ne_nil (files : List FileEntry) (m : Nat) :
    ∀ b ∈ createBatches files m, b ≠ [] := by
  intro b hb
  by_cases hf : files = []
  · subst hf; simp [createBatches] at hb
  · simp only [createBatches, if_neg hf] at hb
    rcases List.mem_append.mp hb with h1 | h1
    · rcases List.mem_map.mp h1 with ⟨d, hd, rfl⟩
      have hdk : d ∈ dirKeys files := ((mem_phase1Dirs files m d).mp hd).1
      rcases (mem_dirKeys files d).mp hdk with ⟨f, hfmem, hfd⟩
      have : f ∈ dirFiles files d := by
        simp only [dirFiles, List.mem_filter]
        exact ⟨hfmem, by simp [hfd]⟩
      exact List.ne_nil_of_mem this
    · rcases List.mem_flatten.mp h1 with ⟨bs, hbs, hbmem⟩
      rcases List.mem_map.mp hbs with ⟨d, _, rfl⟩
      exact greedyFill_ne_nil m _ b hbmem

/-! Helper lemmas about the batch simplifier. -/

theorem simplify_foldl_eq (batch all : List FileEntry) :
    ∀ (ds : List String) (acc : List String × List String),
      ds.foldl (simplifyStep batch all) acc
        = (acc.1 ++ ((ds.filter (fun d => decide (d = ".") || !dirSetEq batch all d)).map
              (fun d => (dirFiles batch d).map (fun f => f.path))).flatten,
           acc.2 ++ ds.filter (fun d => !decide (d = ".") && dirSetEq batch all d)) := by
  intro ds
  induction ds with
  | nil => intro acc; simp
  | cons d ds ih =>
    intro acc
    simp only [List.foldl_cons, simplifyStep]
    by_cases hdot : d = "."
    · rw [if_pos hdot, ih]
      have hc1 : (decide (d = ".") || !dirSetEq batch all d) = true := by simp [hdot]
      have hc2 : (!decide (d = ".") && dirSetEq batch all d) = false := by simp [hdot]
      simp [List.filter_cons, hc1, hc2, List.append_assoc]
    · rw [if_neg hdot]
      by_cases hseq : dirSetEq batch all d = true
      · rw [if_pos hseq, ih]
        have hc1 : (decide (d = ".") || !dirSetEq batch all d) = false := by
          simp [hdot, hseq]
        have hc2 : (!decide (d = ".") && dirSetEq batch all d) = true := by
          simp [hdot, hseq]
        simp [List.filter_cons, hc1, hc2, List.append_assoc]
      · rw [if_neg hseq, ih]
        have hseq' : dirSetEq batch all d = false := by
          revert hseq; cases dirSetEq batch all d <;> simp
        have hc1 : (decide (d = ".") || !dirSetEq batch all d) = true := by
          simp [hseq']
        have hc2 : (!decide (d = ".") && dirSetEq batch all d) = false := by
          simp [hseq']
        simp [List.filter_cons, hc1, hc2, List.append_assoc]

theorem simplifyBatchFiles_eq (batch all : List FileEntry) :
    simplifyBatchFiles batch all
      = ((((dirKeys batch).filter (fun d => decide (d = ".") || !dirSetEq batch all d)).map
            (fun d => (dirFiles batch d).map (fun f => f.path))).flatten,
         (dirKeys batch).filter (fun d => !decide (d = ".") && dirSetEq batch all d)) := by
  rw [simplifyBatchFiles, simplify_foldl_eq]
  simp

theorem simplify_root_not_token (batch all : List FileEntry) :
    "." ∉ (simplifyBatchFiles batch all).2 := by
  rw [simplifyBatchFiles_eq]
  intro h
  have h2 := (List.mem_filter.mp h).2
  simp at h2

theorem simplify_root_files_listed (batch all : List FileEntry) :
    ∀ f ∈ batch, f.dir = "." → f.path ∈ (simplifyBatchFiles batch all).1 := by
  intro f hf hdir
  rw [simplifyBatchFiles_eq]
  apply List.mem_flatten.mpr
  refine ⟨(dirFiles batch ".").map (fun g => g.path), ?_, ?_⟩
  · apply List.mem_map.mpr
    refine ⟨".", List.mem_filter.mpr ⟨?_, by simp⟩, rfl⟩
    exact (mem_dirKeys batch ".").mpr ⟨f, hf, hdir⟩
  · apply List.mem_map.mpr
    refine ⟨f, ?_, rfl⟩
    simp only [dirFiles, List.mem_filter]
    exact ⟨hf, by simp [hdir]⟩

theorem simplify_round_trip (batch all : List FileEntry) :
    ((simplifyBatchFiles batch all).1
        ++ (((simplifyBatchFiles batch all).2).map
              (fun d => (dirFiles all d).map (fun f => f.path))).flatten).toFinset
      = (batch.map (fun f => f.path)).toFinset := by
  rw [simplifyBatchFiles_eq]
  ext x
  simp only [List.mem_toFinset, List.mem_append, List.mem_flatten, List.mem_map,
    List.mem_filter]
  constructor
  · rintro (⟨l, ⟨d, ⟨hdk, _⟩, rfl⟩, hx⟩ | ⟨l, ⟨d, ⟨hdk, hcond⟩, rfl⟩, hx⟩)
    · rcases List.mem_map.mp hx with ⟨f, hfmem, rfl⟩
      exact ⟨f, (List.mem_filter.mp hfmem).1, rfl⟩
    · have hseq : dirSetEq batch all d = true := by
        revert hcond; cases dirSetEq batch all d <;> simp
      have hset := of_decide_eq_true hseq
      have hx2 : x ∈ (dirFiles batch d).map (fun f => f.path) := by
        have hx1 : x ∈ ((dirFiles all d).map (fun f => f.path)).toFinset :=
          List.mem_toFinset.mpr hx
        rw [← hset] at hx1
        exact List.mem_toFinset.mp hx1
      rcases List.mem_map.mp hx2 with ⟨f, hfmem, rfl⟩
      exact ⟨f, (List.mem_filter.mp hfmem).1, rfl⟩
  · rintro ⟨f, hf, rfl⟩
    have hdk : f.dir ∈ dirKeys batch := (mem_dirKeys batch f.dir).mpr ⟨f, hf, rfl⟩
    have hfd : f ∈ dirFiles batch f.dir := by
      simp only [dirFiles, List.mem_filter]
      exact ⟨hf, by simp⟩
    by_cases hcond : (decide (f.dir = ".") || !dirSetEq batch all f.dir) = true
    · left
      exact ⟨(dirFiles batch f.dir).map (fun g => g.path),
        ⟨f.dir, ⟨hdk, hcond⟩, rfl⟩, List.mem_map.mpr ⟨f, hfd, rfl⟩⟩
    · right
      have hdot : decide (f.dir = ".") = false := by
        revert hcond; cases h1 : decide (f.dir = ".") <;> simp
      have hseq : dirSetEq batch all f.dir = true := by
        revert hcond; cases h1 : dirSetEq batch all f.dir <;> simp [hdot]
      have hset := of_decide_eq_true hseq
      refine ⟨(dirFiles all f.dir).map (fun g => g.path),
        ⟨f.dir, ⟨hdk, by simp [hdot, hseq]⟩, rfl⟩, ?_⟩
      have hx1 : f.path ∈ ((dirFiles batch f.dir).map (fun g => g.path)).toFinset :=
        List.mem_toFinset.mpr (List.mem_map.mpr ⟨f, hfd, rfl⟩)
      rw [hset] at hx1
      exact List.mem_toFinset.mp hx1

/-! Helper lemmas about the size filter. -/

theorem filter_foldl_eq (l : List FileEntry) :
    ∀ acc : List FileEntry × List String,
      l.foldl
          (fun acc f =>
            if maxFileSize < f.size then (acc.1, acc.2 ++ [f.path])
            else (acc.1 ++ [f], acc.2)) acc
        = (acc.1 ++ l.filter (fun f => decide (f.size ≤ maxFileSize)),
           acc.2 ++ (l.filter (fun f => decide (maxFileSize < f.size))).map
              (fun f => f.path)) := by
  induction l with
  | nil => intro acc; simp
  | cons f fs ih =>
    intro acc
    simp only [List.foldl_cons]
    by_cases h : maxFileSize < f.size
    · have h' : ¬ f.size ≤ maxFileSize := Nat.not_le.mpr h
      rw [if_pos h, ih]
      simp [List.filter_cons, h, h', List.append_assoc]
    · have h' : f.size ≤ maxFileSize := Nat.not_lt.mp h
      rw [if_neg h, ih]
      simp [List.filter_cons, h, h', List.append_assoc]

theorem filterGitFiles_eq (l : List FileEntry) :
    filterGitFiles l
      = (l.filter (fun f => decide (f.size ≤ maxFileSize)),
         (l.filter (fun f => decide (maxFileSize < f.size))).map (fun f => f.path)) := by
  rw [filterGitFiles, filter_foldl_eq]
  simp

/-! Helper lemmas about the execution pipeline. -/

theorem runBatches_attempted_le :
    ∀ (plan : List (Bool × Bool)) (i : Nat) (b : Bool × Bool),
      plan[i]? = some b → execBatchOutcome b.1 b.2 = false →
      (runBatches plan).2 ≤ i + 1 := by
  intro plan
  induction plan with
  | nil => intro i b h; simp at h
  | cons c rest ih =>
    intro i b hget hfail
    by_cases hc : execBatchOutcome c.1 c.2 = true
    · simp only [runBatches, if_pos hc]
      cases i with
      | zero =>
        have hcb : c = b := by simpa using hget
        rw [hcb, hfail] at hc
        exact absurd hc (by simp)
      | succ j =>
        have hget' : rest[j]? = some b := by simpa using hget
        have hle := ih j b hget' hfail
        omega
    · simp only [runBatches, if_neg hc]
      omega

theorem runBatches_success_ne :
    ∀ (plan : List (Bool × Bool)) (i : Nat) (b : Bool × Bool),
      plan[i]? = some b → execBatchOutcome b.1 b.2 = false →
      (runBatches plan).1 ≠ plan.length := by
  intro plan
  induction plan with
  | nil => intro i b h; simp at h
  | cons c rest ih =>
    intro i b hget hfail
    by_cases hc : execBatchOutcome c.1 c.2 = true
    · simp only [runBatches, if_pos hc, List.length_cons]
      cases i with
      | zero =>
        have hcb : c = b := by simpa using hget
        rw [hcb, hfail] at hc
        exact absurd hc (by simp)
      | succ j =>
        have hget' : rest[j]? = some b := by simpa using hget
        have hne := ih j b hget' hfail
        omega
    · simp only [runBatches, if_neg hc, List.length_cons]
      have h0 : (((0 : Nat), (1 : Nat)) : Nat × Nat).1 = 0 := rfl
      omega

theorem runBatches_success_iff (plan : List (Bool × Bool)) :
    (runBatches plan).1 = plan.length ↔ ∀ b ∈ plan, b.1 = true ∧ b.2 = true := by
  induction plan with
  | nil => simp [runBatches]
  | cons c rest ih =>
    by_cases hc : execBatchOutcome c.1 c.2 = true
    · have hcands : c.1 = true ∧ c.2 = true := by
        simpa [execBatchOutcome] using hc
      simp only [runBatches, if_pos hc, List.length_cons]
      constructor
      · intro h b hb
        rcases List.mem_cons.mp hb with rfl | hb'
        · exact hcands
        · exact (ih.mp (by omega)) b hb'
      · intro h
        have hr := ih.mpr (fun b hb => h b (List.mem_cons_of_mem c hb))
        omega
    · simp only [runBatches, if_neg hc, List.length_cons]
      constructor
      · intro h
        have h0 : (0 : Nat) = rest.length + 1 := h
        omega
      · intro h
        have hcc := h c (List.mem_cons_self c rest)
        have hT : execBatchOutcome c.1 c.2 = true := by
          simp [execBatchOutcome, hcc.1, hcc.2]
        exact absurd hT hc

theorem pushCount_eq_one_iff (plan : List (Bool × Bool)) :
    pushCount plan = 1 ↔ ∀ b ∈ plan, b.1 = true ∧ b.2 = true := by
  rw [pushCount]
  by_cases h : (runBatches plan).1 = plan.length
  · rw [if_pos h]
    constructor
    · intro _; exact (runBatches_success_iff plan).mp h
    · intro _; rfl
  · rw [if_neg h]
    constructor
    · intro h0; exact absurd h0 (by omega)
    · intro hall; exact absurd ((runBatches_success_iff plan).mpr hall) h

theorem pushCount_eq_zero (plan : List (Bool × Bool)) (i : Nat) (b : Bool × Bool)
    (h1 : plan[i]? = some b) (h2 : execBatchOutcome b.1 b.2 = false) :
    pushCount plan = 0 := by
  rw [pushCount, if_neg (runBatches_success_ne plan i b h1 h2)]

/-! Helper lemma about the derived message-file path. -/

theorem batch_path_ne (origPath : String) (i : Nat) :
    origPath ++ ".batch" ++ toString i ≠ origPath := by
  intro h
  have hlen := congrArg String.length h
  rw [String.length_append, String.length_append] at hlen
  have h6 : (".batch" : String).length = 6 := rfl
  omega

/-! Claim theorems. -/

/-- Claim C1: for every list of accepted file entries and every positive max batch
size, the batches returned by `create_batches` partition the input: the
concatenation of all batches is a permutation of the input list, so every
input entry appears in exactly one batch (once) and no batch contains an
entry that was not in the input. -/
theorem create_batches_partitions_input (files : List FileEntry) (m : Nat)
    (_hm : 0 < m) : List.Perm (createBatches files m).flatten files :=
  createBatches_flatten_perm files m

/-- Witness for C1 at a concrete input. -/
theorem create_batches_partitions_input_witness :
    0 < 100
      ∧ List.Perm (createBatches [⟨"a.txt", 7, "."⟩] 100).flatten
          [(⟨"a.txt", 7, "."⟩ : FileEntry)] :=
  ⟨by decide, create_batches_partitions_input [⟨"a.txt", 7, "."⟩] 100 (by decide)⟩

/-- Claim C2: for every list of accepted file entries and every positive max batch
size, every batch of `create_batches` has aggregate size at most the max
batch size, or else consists of exactly one file whose own size exceeds the
max batch size. -/
theorem create_batches_respects_budget (files : List FileEntry) (m : Nat)
    (_hm : 0 < m) : ∀ b ∈ createBatches files m, batchWithinBudget m b :=
  createBatches_budget files m

/-- Witness for C2 at a concrete input. -/
theorem create_batches_respects_budget_witness :
    0 < 100 ∧ batchWithinBudget 100 [(⟨"a.txt", 7, "."⟩ : FileEntry)] :=
  ⟨by decide,
    create_batches_respects_budget [⟨"a.txt", 7, "."⟩] 100 (by decide)
      [⟨"a.txt", 7, "."⟩] (by decide)⟩

/-- Claim C3: in every execution run (a nonempty plan of per-batch staging/commit
outcomes), if staging or committing batch i fails then at most i+1 batches
are ever attempted (no later batch runs) and push is never invoked; push is
invoked exactly once when and only when every batch succeeds. -/
theorem pipeline_failure_is_terminal (plan : List (Bool × Bool))
    (_hne : plan ≠ []) :
    (∀ i b, plan[i]? = some b → execBatchOutcome b.1 b.2 = false →
        (runBatches plan).2 ≤ i + 1 ∧ pushCount plan = 0)
      ∧ (pushCount plan = 1 ↔ ∀ b ∈ plan, b.1 = true ∧ b.2 = true) :=
  ⟨fun i b hget hfail =>
      ⟨runBatches_attempted_le plan i b hget hfail,
       pushCount_eq_zero plan i b hget hfail⟩,
   pushCount_eq_one_iff plan⟩

/-- Witness for C3: batch 2 of 3 fails, so at most 2 batches are attempted
and push never runs. -/
theorem pipeline_failure_is_terminal_witness :
    ([((true : Bool), (true : Bool)), (false, true), (true, true)] :
        List (Bool × Bool)) ≠ []
      ∧ (runBatches [(true, true), (false, true), (true, true)]).2 ≤ 2
      ∧ pushCount [(true, true), (false, true), (true, true)] = 0 := by
  have h := (pipeline_failure_is_terminal
    [(true, true), (false, true), (true, true)] (by decide)).1 1 (false, true)
    (by decide) (by decide)
  exact ⟨by decide, h.1, h.2⟩

/-- Claim C4: for every batch whose entries are a subset of the full accepted set,
`simplify_batch_files` is a sound round-trip: replacing each emitted
directory token by that directory's full file list from the accepted set and
taking the union with the emitted file-path list reproduces exactly the
batch's original set of file paths; entries whose directory is "." are
always listed individually and "." is never emitted as a directory token. -/
theorem simplify_batch_files_sound (batch all : List FileEntry)
    (_hsub : ∀ f ∈ batch, f ∈ all) :
    ((simplifyBatchFiles batch all).1
        ++ (((simplifyBatchFiles batch all).2).map
              (fun d => (dirFiles all d).map (fun f => f.path))).flatten).toFinset
      = (batch.map (fun f => f.path)).toFinset
    ∧ (∀ f ∈ batch, f.dir = "." → f.path ∈ (simplifyBatchFiles batch all).1)
    ∧ "." ∉ (simplifyBatchFiles batch all).2 :=
  ⟨simplify_round_trip batch all, simplify_root_files_listed batch all,
   simplify_root_not_token batch all⟩

/-- Witness for C4 at a concrete batch (a whole directory plus a root file
taken from the accepted set). -/
theorem simplify_batch_files_sound_witness :
    (∀ f ∈ ([⟨"d/a", 1, "d"⟩, ⟨"r", 3, "."⟩] : List FileEntry),
        f ∈ ([⟨"d/a", 1, "d"⟩, ⟨"d/b", 2, "d"⟩, ⟨"r", 3, "."⟩] : List FileEntry))
      ∧ ((simplifyBatchFiles [⟨"d/a", 1, "d"⟩, ⟨"r", 3, "."⟩]
            [⟨"d/a", 1, "d"⟩, ⟨"d/b", 2, "d"⟩, ⟨"r", 3, "."⟩]).1
          ++ (((simplifyBatchFiles [⟨"d/a", 1, "d"⟩, ⟨"r", 3, "."⟩]
                [⟨"d/a", 1, "d"⟩, ⟨"d/b", 2, "d"⟩, ⟨"r", 3, "."⟩]).2).map
                (fun d => (dirFiles [⟨"d/a", 1, "d"⟩, ⟨"d/b", 2, "d"⟩, ⟨"r", 3, "."⟩] d).map
                  (fun f => f.path))).flatten).toFinset
        = (([⟨"d/a", 1, "d"⟩, ⟨"r", 3, "."⟩] : List FileEntry).map
            (fun f => f.path)).toFinset := by
  have h := simplify_batch_files_sound [⟨"d/a", 1, "d"⟩, ⟨"r", 3, "."⟩]
    [⟨"d/a", 1, "d"⟩, ⟨"d/b", 2, "d"⟩, ⟨"r", 3, "."⟩] (by decide)
  exact ⟨by decide, h.1⟩

/-- Claim C5: for every ordered list of path tokens and every positive max command
length, the chunks of `batch_git_add_files` concatenate in order to exactly
the input list, and every chunk's estimated command length (prefix plus each
token with one separator) is at most the limit, except that a chunk may be a
single token that alone exceeds it. -/
theorem chunking_complete_and_length_bounded (ps : List String) (L : Nat)
    (_hL : 0 < L) :
    (batchGitAddChunks ps L).flatten = ps
      ∧ ∀ c ∈ batchGitAddChunks ps L, chunkWithinBudget L c :=
  ⟨batchGitAddChunks_flatten ps L, batchGitAddChunks_budget ps L⟩

/-- Witness for C5 at a concrete input. -/
theorem chunking_complete_and_length_bounded_witness :
    0 < 32000
      ∧ (batchGitAddChunks ["src/a.c", "src/b.c"] 32000).flatten
          = ["src/a.c", "src/b.c"] :=
  ⟨by decide,
    (chunking_complete_and_length_bounded ["src/a.c", "src/b.c"] 32000 (by decide)).1⟩

/-- Claim C6: the size filter accepts an entry iff its size is at most 50 MiB and
skips it (recording its path) iff its size exceeds 50 MiB, and every entry
of every batch planned from the accepted list is within the 50 MiB ceiling,
so no skipped entry ever appears in any batch of the resulting plan. -/
theorem size_filter_partitions_and_excludes (gitFiles : List FileEntry) :
    (∀ f, f ∈ (filterGitFiles gitFiles).1 ↔ f ∈ gitFiles ∧ f.size ≤ maxFileSize)
      ∧ (∀ p, p ∈ (filterGitFiles gitFiles).2
          ↔ ∃ f ∈ gitFiles, f.path = p ∧ maxFileSize < f.size)
      ∧ (∀ b ∈ createBatches (filterGitFiles gitFiles).1 defaultMaxBatchSize,
          ∀ f ∈ b, f.size ≤ maxFileSize) := by
  refine ⟨?_, ?_, ?_⟩
  · intro f
    rw [filterGitFiles_eq]
    simp [List.mem_filter]
  · intro p
    rw [filterGitFiles_eq]
    simp only [List.mem_map, List.mem_filter, decide_eq_true_eq]
    constructor
    · rintro ⟨f, ⟨hf, hs⟩, rfl⟩
      exact ⟨f, hf, rfl, hs⟩
    · rintro ⟨f, hf, rfl, hs⟩
      exact ⟨f, ⟨hf, hs⟩, rfl⟩
  · intro b hb f hf
    have hperm := createBatches_flatten_perm (filterGitFiles gitFiles).1
      defaultMaxBatchSize
    have hmem : f ∈ (createBatches (filterGitFiles gitFiles).1
        defaultMaxBatchSize).flatten := List.mem_flatten.mpr ⟨b, hb, hf⟩
    have hacc : f ∈ (filterGitFiles gitFiles).1 := hperm.mem_iff.mp hmem
    rw [filterGitFiles_eq] at hacc
    have hs := (List.mem_filter.mp hacc).2
    simpa using hs

/-- Witness for C6: a 10-byte entry is accepted and an oversized entry's
path is skipped. -/
theorem size_filter_partitions_and_excludes_witness :
    ((⟨"ok.txt", 10, "."⟩ : FileEntry)
        ∈ (filterGitFiles [⟨"ok.txt", 10, "."⟩, ⟨"big.bin", 52428801, "."⟩]).1)
      ∧ "big.bin" ∈ (filterGitFiles [⟨"ok.txt", 10, "."⟩,
          ⟨"big.bin", 52428801, "."⟩]).2 := by
  have h := size_filter_partitions_and_excludes
    [⟨"ok.txt", 10, "."⟩, ⟨"big.bin", 52428801, "."⟩]
  refine ⟨(h.1 ⟨"ok.txt", 10, "."⟩).mpr ⟨by decide, by decide⟩, ?_⟩
  exact (h.2.1 "big.bin").mpr ⟨⟨"big.bin", 52428801, "."⟩, by decide, rfl, by decide⟩

/-- Claim C7: for a 1-batch plan, `create_commit_message_file` returns the
original template path with the template's message and creates no temp file;
for a plan with more than one batch, the derived message is the template
text with the appended batch marker (after a newline when the stripped text
is nonempty), written to a new disposable file whose path differs from the
template's. -/
theorem commit_message_derivation (origPath origMessage : String) (i n : Nat) :
    (n = 1 → createCommitMessageFile origPath origMessage i n
        = { msgPath := origPath, message := origMessage, createdTempFile := false })
      ∧ (1 < n →
          (createCommitMessageFile origPath origMessage i n).createdTempFile = true
          ∧ (createCommitMessageFile origPath origMessage i n).msgPath
              = origPath ++ ".batch" ++ toString i
          ∧ (createCommitMessageFile origPath origMessage i n).msgPath ≠ origPath
          ∧ ∃ sep, (sep = "\n" ∨ sep = "")
              ∧ (createCommitMessageFile origPath origMessage i n).message
                  = origMessage ++ sep ++ batchMarker i n) := by
  constructor
  · intro hn
    subst hn
    simp [createCommitMessageFile]
  · intro hn
    have hn1 : n ≠ 1 := by omega
    have hstep : createCommitMessageFile origPath origMessage i n
        = { msgPath := origPath ++ ".batch" ++ toString i,
            message :=
              if origMessage ≠ "" ∧ ¬ origMessage.endsWith "\n" then
                origMessage ++ "\n" ++ batchMarker i n
              else origMessage ++ batchMarker i n,
            createdTempFile := true } := by
      simp only [createCommitMessageFile, if_neg hn1]
    rw [hstep]
    refine ⟨rfl, rfl, batch_path_ne origPath i, ?_⟩
    by_cases hcond : origMessage ≠ "" ∧ ¬ origMessage.endsWith "\n"
    · exact ⟨"\n", Or.inl rfl, by rw [if_pos hcond]⟩
    · exact ⟨"", Or.inr rfl, by rw [if_neg hcond, String.append_empty]⟩

/-- Witness for C7 at concrete inputs: 1-batch plan returns the template
unchanged; batch 2 of 3 uses a fresh path. -/
theorem commit_message_derivation_witness :
    createCommitMessageFile "ci.txt" "msg" 1 1
        = { msgPath := "ci.txt", message := "msg", createdTempFile := false }
      ∧ (createCommitMessageFile "ci.txt" "msg" 2 3).msgPath ≠ "ci.txt" := by
  have h1 := commit_message_derivation "ci.txt" "msg" 1 1
  have h2 := commit_message_derivation "ci.txt" "msg" 2 3
  exact ⟨h1.1 rfl, (h2.2 (by decide)).2.2.1⟩

/-- Claim C8: the plan of `create_batches` is ordered as all Phase-1
whole-directory batches in ascending order of directory aggregate size,
followed by all Phase-2 batches of oversized directories in descending
order of directory aggregate size, batches of the same directory appearing
in greedy fill order; together the two phases cover every directory. -/
theorem create_batches_plan_ordering (files : List FileEntry) (m : Nat) :
    ∃ p1 p2 : List String,
      createBatches files m
          = p1.map (fun d => dirFiles files d)
            ++ ((p2.map (fun d =>
                  greedyFill m (sortFilesDesc (dirFiles files d)))).flatten)
        ∧ List.Pairwise (fun a b => dirSize files a ≤ dirSize files b) p1
        ∧ List.Pairwise (fun a b => dirSize files b ≤ dirSize files a) p2
        ∧ (∀ d ∈ p1, dirSize files d ≤ m)
        ∧ (∀ d ∈ p2, m < dirSize files d)
        ∧ List.Perm (p1 ++ p2) (dirKeys files) := by
  by_cases hf : files = []
  · subst hf
    exact ⟨[], [], by simp [createBatches], by simp, by simp, by simp, by simp,
      List.Perm.refl []⟩
  · exact ⟨phase1Dirs files m, phase2Dirs files m, by simp [createBatches, hf],
      pairwise_phase1Dirs files m, pairwise_phase2Dirs files m,
      fun d hd => ((mem_phase1Dirs files m d).mp hd).2,
      fun d hd => ((mem_phase2Dirs files m d).mp hd).2,
      phaseDirs_append_perm files m⟩

/-- Claim C9: a status-reported path that does not exist on disk as a regular
file (and is not a directory) is recorded as an entry of size 0; such an
entry always passes the 50 MiB filter and contributes zero bytes to every
batch aggregate. -/
theorem deleted_path_zero_size (fs : String → PathKind)
    (parentDir : String → String) (expandDir : String → List FileEntry)
    (p : String) (h : fs p = PathKind.absent) :
    statusEntriesFor fs parentDir expandDir p
        = [{ path := p, size := 0, dir := parentDir p }]
      ∧ (∀ l : List FileEntry,
          ({ path := p, size := 0, dir := parentDir p } : FileEntry) ∈ l →
          ({ path := p, size := 0, dir := parentDir p } : FileEntry)
            ∈ (filterGitFiles l).1)
      ∧ (∀ b : List FileEntry,
          batchSize ({ path := p, size := 0, dir := parentDir p } :: b)
            = batchSize b) := by
  refine ⟨?_, ?_, ?_⟩
  · simp [statusEntriesFor, h]
  · intro l hl
    rw [filterGitFiles_eq]
    exact List.mem_filter.mpr ⟨hl, by simp⟩
  · intro b
    simp [batchSize]

/-- Witness for C9 at a concrete absent path. -/
theorem deleted_path_zero_size_witness :
    (fun _ : String => PathKind.absent) "gone.txt" = PathKind.absent
      ∧ statusEntriesFor (fun _ => PathKind.absent) (fun _ => ".") (fun _ => [])
          "gone.txt" = [{ path := "gone.txt", size := 0, dir := "." }] := by
  have h := deleted_path_zero_size (fun _ => PathKind.absent) (fun _ => ".")
    (fun _ => []) "gone.txt" rfl
  exact ⟨rfl, h.1⟩

/-- Claim C10: every batch produced by `create_batches` is nonempty, so the
empty-batch failure guard of `execute_git_add_commit` is never triggered
for planner-produced batches. -/
theorem planner_batches_nonempty (files : List FileEntry) (m : Nat) :
    ∀ b ∈ createBatches files m, b ≠ [] ∧ emptyBatchGuard b = false := by
  intro b hb
  have hne := createBatches_ne_nil files m b hb
  refine ⟨hne, ?_⟩
  cases b with
  | nil => exact absurd rfl hne
  | cons hd tl => rfl

/-- Witness for C10 at a concrete input. -/
theorem planner_batches_nonempty_witness :
    emptyBatchGuard [(⟨"a.txt", 7, "."⟩ : FileEntry)] = false := by
  have h := planner_batches_nonempty [⟨"a.txt", 7, "."⟩] 100
    [⟨"a.txt", 7, "."⟩] (by decide)
  exact h.2

end GitBatch
